import Mathlib

/-!
Verification of the document pipeline of `build_wiki.py`, a static wiki
generator.  Strings are modelled as `List Char` (Python `str` over ASCII
inputs); regular-expression substitutions are modelled by structurally
recursive functions on character lists; `print` warnings are modelled by a
warning counter; the file system is modelled by association lists of
relative paths to contents.
-/

namespace BuildWiki

/-- Python `\s` (ASCII range): space, tab, newline, carriage return,
vertical tab, form feed. -/
def isPySpace (c : Char) : Bool :=
  c = ' ' || c = '\t' || c = '\n' || c = '\r' || c = '\x0b' || c = '\x0c'

/-- Python `\w` (ASCII range): letters, digits, underscore. -/
def isPyWord (c : Char) : Bool :=
  c.isAlpha || c.isDigit || c = '_'

/-- Python `str.lower` (ASCII range). -/
def lowerStr (l : List Char) : List Char := l.map Char.toLower

/-- Python `str.strip(c)`: drop the character `c` from both ends. -/
def stripChar (c : Char) (l : List Char) : List Char :=
  ((l.dropWhile (· = c)).reverse.dropWhile (· = c)).reverse

/-- Python `str.strip()`: drop whitespace from both ends. -/
def stripWs (l : List Char) : List Char :=
  ((l.dropWhile (isPySpace ·)).reverse.dropWhile (isPySpace ·)).reverse

/-- Helper for `collapseRuns`: `inRun` records whether the previous
character belonged to a whitespace run already replaced. -/
def collapseAux (rep : Char) (inRun : Bool) : List Char → List Char
  | [] => []
  | c :: cs =>
    if isPySpace c then
      if inRun then collapseAux rep true cs
      else rep :: collapseAux rep true cs
    else c :: collapseAux rep false cs

/-- Model of `re.sub(r"\s+", rep, s)` for a one-character replacement:
each maximal run of whitespace becomes the single character `rep`. -/
def collapseRuns (rep : Char) (l : List Char) : List Char :=
  collapseAux rep false l

/-- Model of Python `str.replace(".md", "")`: delete every (left-to-right,
non-overlapping) occurrence of the substring `".md"`. -/
def stripMd : List Char → List Char
  | '.' :: 'm' :: 'd' :: rest => stripMd rest
  | c :: rest => c :: stripMd rest
  | [] => []

/-- `slugify` from `build_wiki.py`: lowercase, replace every character that
is not a word character or hyphen by a hyphen, then strip hyphens from both
ends (`re.sub(r"[^\w-]", "-", name.lower()).strip("-")`). -/
def slugify (name : List Char) : List Char :=
  stripChar '-'
    ((lowerStr name).map (fun c => if isPyWord c || c = '-' then c else '-'))

/-- Anchor computation shared by the heading replacer of `simple_md_to_html`
and by `extract_toc`: `re.sub(r"[^\w\s-]", "", text.lower())`, then
`re.sub(r"\s+", "-", anchor).strip("-")`. -/
def anchorOf (text : List Char) : List Char :=
  stripChar '-'
    (collapseRuns '-'
      ((lowerStr text).filter (fun c => isPyWord c || isPySpace c || c = '-')))

/-- The anchor algorithm as the specification states it (claim C5):
lowercase the text, delete every character that is not a word character,
whitespace, or hyphen, replace each run of whitespace with a single hyphen,
and strip leading/trailing hyphens. -/
def specAnchor (text : List Char) : List Char :=
  let lowered := lowerStr text
  let kept := lowered.filter (fun c => isPyWord c || isPySpace c || c = '-')
  let hyphenated := collapseRuns '-' kept
  stripChar '-' hyphenated

/-- Helper for `replaceAll`, structurally recursive on a fuel bound (any
fuel at least the length of the list gives the replace-all behaviour,
because each step consumes at least one character). -/
def replaceAllAux (pat rep : List Char) : Nat → List Char → List Char
  | _, [] => []
  | 0, l => l
  | fuel + 1, c :: cs =>
    if pat ≠ [] ∧ pat.isPrefixOf (c :: cs) then
      rep ++ replaceAllAux pat rep fuel ((c :: cs).drop pat.length)
    else
      c :: replaceAllAux pat rep fuel cs

/-- Model of Python `str.replace(pat, rep)` for a non-empty pattern:
replace every left-to-right, non-overlapping occurrence. -/
def replaceAll (pat rep : List Char) (l : List Char) : List Char :=
  replaceAllAux pat rep l.length l

/-- The HTML-escape step of `simple_md_to_html`: `&`, `<`, `>` become
entities.  The three sequential `str.replace` calls of the source are
equivalent to this single character map because `&` is replaced first and
the emitted entities contain no further `<` or `>`. -/
def escapeChar (c : Char) : List Char :=
  if c = '&' then "&amp;".toList
  else if c = '<' then "&lt;".toList
  else if c = '>' then "&gt;".toList
  else [c]

/-- Escape a whole line (step 1 of `simple_md_to_html`). -/
def escapeLine (l : List Char) : List Char := (l.map escapeChar).flatten

/-- Step 2 of `simple_md_to_html`: restore literal `<details>` / `<summary>`
tags, in the source's replacement order. -/
def restoreTags (l : List Char) : List Char :=
  replaceAll "&lt;/summary&gt;".toList "</summary>".toList
    (replaceAll "&lt;summary&gt;".toList "<summary>".toList
      (replaceAll "&lt;/details&gt;".toList "</details>".toList
        (replaceAll "&lt;details&gt;".toList "<details>".toList l)))

/-- Decimal digits of a level number. -/
def natStr (n : Nat) : List Char := (Nat.repr n).toList

/-- Matcher for `re.sub(r"^#{lv} (.+)$", ...)` on one line: the line starts
with `lv` hash marks and a space and has at least one further character;
the heading text is the remainder, stripped. -/
def matchHeadingAt (lv : Nat) (l : List Char) : Option (List Char) :=
  if (List.replicate lv '#' ++ [' ']).isPrefixOf l ∧ lv + 1 < l.length then
    some (stripWs (l.drop (lv + 1)))
  else none

/-- The four heading substitutions of `simple_md_to_html`, applied in the
source's order (level 4 first, then 3, 2, 1); a line converted by an
earlier pass no longer begins with hashes, so on one line the passes act as
this first-match cascade. -/
def matchHeading (l : List Char) : Option (Nat × List Char) :=
  match matchHeadingAt 4 l with
  | some t => some (4, t)
  | none =>
    match matchHeadingAt 3 l with
    | some t => some (3, t)
    | none =>
      match matchHeadingAt 2 l with
      | some t => some (2, t)
      | none => (matchHeadingAt 1 l).map (fun t => (1, t))

/-- The replacement string emitted by `_heading_replacer`:
`<h{lv} id="{anchor}">{text}</h{lv}>`. -/
def mkHeading (lv : Nat) (text anchor : List Char) : List Char :=
  "<h".toList ++ natStr lv ++ " id=\"".toList ++ anchor ++ "\">".toList ++
    text ++ "</h".toList ++ natStr lv ++ ">".toList

/-- The heading substitution applied to one (already escaped/restored)
line. -/
def renderHeadLine (l : List Char) : List Char :=
  match matchHeading l with
  | some (lv, t) => mkHeading lv t (anchorOf t)
  | none => l

/-- Stages 1–3 of `simple_md_to_html` on one line: HTML escape, tag
restore, heading substitution.  These are the stages that determine each
heading element and its `id`; the later stages (rules, emphasis, links,
lists, quotes, code, tables) never rewrite an emitted `id="..."`
attribute. -/
def headingStageLine (l : List Char) : List Char :=
  renderHeadLine (restoreTags (escapeLine l))

/-- Split a document into lines (the `re.MULTILINE` line structure). -/
def linesOf (c : List Char) : List (List Char) := c.splitOn '\n'

/-- Matcher for `^#\s+(.+)$` on one line, as used by `extract_title`. -/
def h1Match (l : List Char) : Option (List Char) :=
  match l with
  | '#' :: rest =>
    if 2 ≤ rest.length ∧ rest.head?.any isPySpace = true then
      some (stripWs rest)
    else none
  | _ => none

/-- `extract_title`: first H1 heading of the content, else the fallback. -/
def extractTitle (content fallbackT : List Char) : List Char :=
  match (linesOf content).findSome? h1Match with
  | some t => t
  | none => fallbackT

/-- Scan for the next triple-backtick fence; return the remainder after
it. -/
def cutFence : List Char → Option (List Char)
  | [] => none
  | c :: cs =>
    if ("```".toList).isPrefixOf (c :: cs) then some (cs.drop 2)
    else cutFence cs

theorem cutFence_le : ∀ {l r : List Char}, cutFence l = some r → r.length ≤ l.length := by
  intro l
  induction l with
  | nil => intro r h; simp [cutFence] at h
  | cons c cs ih =>
    intro r h
    rw [cutFence] at h
    split at h
    · cases h
      simp only [List.length_drop, List.length_cons]
      omega
    · exact Nat.le_trans (ih h) (by simp)

/-- Helper for `stripFences`, structurally recursive on a fuel bound (each
step consumes at least one character, so fuel equal to the length of the
list suffices). -/
def stripFencesAux : Nat → List Char → List Char
  | _, [] => []
  | 0, l => l
  | fuel + 1, l =>
    match l with
    | '`' :: '`' :: '`' :: rest =>
      match cutFence rest with
      | some r2 => stripFencesAux fuel r2
      | none => '`' :: '`' :: '`' :: rest
    | c :: cs => c :: stripFencesAux fuel cs
    | [] => []

/-- Model of `re.sub(r"```[\s\S]*?```", "", text)`: delete every fenced
block, matching each opening fence with the next closing fence
(non-greedy); an opening fence with no closer is left in place. -/
def stripFences (l : List Char) : List Char :=
  stripFencesAux l.length l

/-- The characters deleted by `re.sub(r"[#*\x60\[\]\(\)|>-]", " ", text)`
in `extract_text_content`. -/
def isMdPunct (c : Char) : Bool :=
  c = '#' || c = '*' || c = '`' || c = '[' || c = ']' || c = '(' ||
    c = ')' || c = '|' || c = '>' || c = '-'

/-- `extract_text_content` from `build_wiki.py`: remove fenced code blocks,
replace each Markdown punctuation character by a space, collapse
whitespace runs to single spaces, and strip. -/
def extractTextContent (md : List Char) : List Char :=
  stripWs (collapseRuns ' ' ((stripFences md).map
    (fun c => if isMdPunct c then ' ' else c)))

/-- The search-text transformation as claim C6 words it: the punctuation
characters are removed (deleted) rather than replaced by spaces. -/
def claimSearchText (md : List Char) : List Char :=
  stripWs (collapseRuns ' ' ((stripFences md).filter (fun c => !(isMdPunct c))))

/-- Lexicographic order on character lists by code point, i.e. Python
string `<=`. -/
def lexLe : List Char → List Char → Bool
  | [], _ => true
  | _ :: _, [] => false
  | a :: as, b :: bs => if a < b then true else if b < a then false else lexLe as bs

/-- Strict lexicographic order on character lists by code point, i.e.
Python string `<`. -/
def lexLt : List Char → List Char → Bool
  | [], [] => false
  | [], _ :: _ => true
  | _ :: _, [] => false
  | a :: as, b :: bs => if a < b then true else if b < a then false else lexLt as bs

/-! ## Path helpers (`pathlib` operations used by the discovery code) -/

/-- The final path component (`Path.name`): everything after the last
`/`. -/
def baseName (p : List Char) : List Char :=
  (p.reverse.takeWhile (· ≠ '/')).reverse

/-- The directory part (`str(Path(p).parent)` mapped to `""` for `"."`):
everything before the last `/`, or `""` when there is no `/`. -/
def dirName (p : List Char) : List Char :=
  if '/' ∈ p then ((p.reverse.dropWhile (· ≠ '/')).drop 1).reverse else []

/-- `Path.stem` restricted to a single name component: the name without
its suffix; the suffix is the part from the last dot, provided that dot is
neither the first nor the last character of the name. -/
def stemOfName (name : List Char) : List Char :=
  match name.reverse with
  | [] => name
  | r₀ :: _ =>
    if r₀ = '.' then name
    else
      match name.reverse.dropWhile (· ≠ '.') with
      | [] => name
      | _ :: rest => if rest = [] then name else rest.reverse

/-- `Path(p).stem` for a relative path: the stem of its final
component. -/
def pathStem (p : List Char) : List Char := stemOfName (baseName p)

/-- The discovery key of a source file: the relative path with the `.md`
suffix removed (`rel.with_suffix("")`), for well-formed `*.md` paths. -/
def fileKey (p : List Char) : List Char := p.take (p.length - 3)

/-- Well-formedness of a discovered source path: it ends in `.md` and the
part before the suffix has a non-empty final component (so
`with_suffix("")` indeed just drops the three suffix characters). -/
def WfPath (p : List Char) : Prop :=
  ∃ q : List Char, p = q ++ ('.' :: 'm' :: 'd' :: []) ∧ baseName q ≠ []

instance (p : List Char) : Decidable (WfPath p) := by
  unfold WfPath
  by_cases h : p.length ≥ 3 ∧ p.drop (p.length - 3) = ('.' :: 'm' :: 'd' :: []) ∧
      baseName (p.take (p.length - 3)) ≠ []
  · exact .isTrue ⟨p.take (p.length - 3), by
      constructor
      · conv_lhs => rw [← List.take_append_drop (p.length - 3) p]
        rw [h.2.1]
      · exact h.2.2⟩
  · refine .isFalse ?_
    rintro ⟨q, rfl, hq⟩
    apply h
    refine ⟨by simp, ?_, ?_⟩
    · simp
    · simpa using hq

/-! ## Page discovery (`discover_pages` and its helpers) -/

/-- A source document: relative path under the input root, and raw
contents (`read_text`). -/
structure MdFile where
  path : List Char
  content : List Char
  deriving DecidableEq, Repr

/-- Page metadata, with the keys of the Python page dict (`md_path` is
represented by the relative path). -/
structure Page where
  relPath : List Char
  htmlName : List Char
  title : List Char
  slug : List Char
  sectionPath : List Char
  content : List Char
  deriving DecidableEq, Repr

/-- The discovery key a page was registered under, recoverable from its
relative path. -/
def keyOf (p : Page) : List Char := fileKey p.relPath

/-- A section node: title, slugs of its own pages, subsections. -/
inductive Sec where
  | mk (title : List Char) (pages : List (List Char)) (subsections : List Sec)

def Sec.title : Sec → List Char
  | .mk t _ _ => t

def Sec.pages : Sec → List (List Char)
  | .mk _ ps _ => ps

def Sec.subsections : Sec → List Sec
  | .mk _ _ ss => ss

/-- A config page reference: a bare filename string, or an object with a
`file` field and an optional `title` override. -/
inductive Entry where
  | str (s : List Char)
  | obj (file : List Char) (title : Option (List Char))
  deriving DecidableEq, Repr

/-- The normalized stem of a config entry: `entry.replace(".md", "")` /
`entry["file"].replace(".md", "")`. -/
def entryStem : Entry → List Char
  | .str s => stripMd s
  | .obj f _ => stripMd f

/-- The optional title override of a config entry. -/
def entryTitle : Entry → Option (List Char)
  | .str _ => none
  | .obj _ t => t

/-- A section config node: `{title?, pages, subsections}` (missing `title`
defaults to `"Untitled"`, missing lists to `[]`). -/
inductive SectionCfg where
  | mk (title : Option (List Char)) (pages : List Entry)
      (subsections : List SectionCfg)

def SectionCfg.titleOf : SectionCfg → List Char
  | .mk (some t) _ _ => t
  | .mk none _ _ => "Untitled".toList

def SectionCfg.pagesOf : SectionCfg → List Entry
  | .mk _ ps _ => ps

def SectionCfg.subsOf : SectionCfg → List SectionCfg
  | .mk _ _ ss => ss

/-- The configuration structure: optional `sections` key (hierarchical)
and optional `pages` key (flat); `sections` takes priority, as in the
source's `if "sections" in config ... elif "pages" in config`. -/
structure Config where
  sections : Option (List SectionCfg)
  pagesCfg : Option (List Entry)

/-- First-match association-list lookup, the model of a Python dict with
distinct keys. -/
def lookupA {β : Type} : List (List Char × β) → List Char → Option β
  | [], _ => none
  | (k, v) :: rest, q => if k = q then some v else lookupA rest q

/-- Python string `<=` as a relation on character lists. -/
def keyLe (a b : List Char) : Prop := lexLe a b = true

instance : DecidableRel keyLe := fun a b => decEq (lexLe a b) true

/-- Component-wise path comparison, the order in which `pathlib` compares
`Path` objects: the tuples of path components are compared
lexicographically, each differing component deciding by string order and
a missing component sorting first (`Path("a/y.md") < Path("a-b/x.md")`
even though the raw strings compare the other way). -/
def partsLe : List (List Char) → List (List Char) → Bool
  | [], _ => true
  | _ :: _, [] => false
  | a :: as, b :: bs => if a = b then partsLe as bs else lexLe a b

/-- Strict component-wise path comparison (`pathlib` `<`). -/
def partsLt : List (List Char) → List (List Char) → Bool
  | [], [] => false
  | [], _ :: _ => true
  | _ :: _, [] => false
  | a :: as, b :: bs => if a = b then partsLt as bs else lexLt a b

/-- `pathlib` path order as a relation on component lists. -/
def partsKeyLe (a b : List (List Char)) : Prop := partsLe a b = true

instance : DecidableRel partsKeyLe := fun a b => decEq (partsLe a b) true

/-- Path order on files (Python `sorted` key): `sorted` over `Path`
objects compares component-wise, not by the raw path string. -/
def fileLe (f g : MdFile) : Prop :=
  partsKeyLe (f.path.splitOn '/') (g.path.splitOn '/')

instance : DecidableRel fileLe :=
  fun f g => decEq (partsLe (f.path.splitOn '/') (g.path.splitOn '/')) true

/-- Sort files by their relative path, the order of
`sorted(input_path.rglob("*.md"))` — `pathlib`'s component-wise path
order; all inputs share the input-root prefix, so the relative paths
decide; the sort is stable, which is irrelevant here because real
traversals yield distinct paths. -/
def sortFiles (fs : List MdFile) : List MdFile :=
  List.insertionSort fileLe fs

/-- The `md_files` dict of `discover_pages`: key = relative path without
extension, in sorted traversal order. -/
def mdFilesOf (fs : List MdFile) : List (List Char × MdFile) :=
  (sortFiles fs).map (fun f => (fileKey f.path, f))

/-- `_resolve_page`: strip `".md"` occurrences, try the exact key, then
try the stem of the (cleaned) reference as a key. -/
def resolvePage (s : List Char) (mf : List (List Char × MdFile)) :
    Option (List Char × MdFile) :=
  let clean := stripMd s
  match lookupA mf clean with
  | some f => some (clean, f)
  | none =>
    match lookupA mf (pathStem clean) with
    | some f => some (pathStem clean, f)
    | none => none

/-- `_make_page`: build the page metadata dict for a resolved key and
file. -/
def mkPage (key : List Char) (f : MdFile) (titleOverride : Option (List Char)) :
    Page :=
  { relPath := f.path
    htmlName := fileKey f.path ++ ".html".toList
    title := titleOverride.getD (extractTitle f.content (pathStem f.path))
    slug := slugify key
    sectionPath := dirName f.path
    content := f.content }

/-- The mutable discovery state: the accumulating page list and the
`seen` set of resolved keys. -/
structure St where
  pages : List Page
  seen : List (List Char)
  deriving DecidableEq, Repr

/-- Resolve a list of config page references in order, threading the
state; returns the new state, the slugs claimed by this reference list
(in order), and the number of warnings printed for unresolved
references.  This is the body of the `for entry in ...pages` loops in
`_process_section_config` and in the flat-config branch of
`discover_pages`. -/
def processEntries (mf : List (List Char × MdFile)) :
    List Entry → St → St × List (List Char) × Nat
  | [], st => (st, [], 0)
  | e :: es, st =>
    match resolvePage (entryStem e) mf with
    | none =>
      let r := processEntries mf es st
      (r.1, r.2.1, r.2.2 + 1)
    | some (k, f) =>
      if k ∈ st.seen then processEntries mf es st
      else
        let pg := mkPage k f (entryTitle e)
        let r := processEntries mf es ⟨st.pages ++ [pg], k :: st.seen⟩
        (r.1, pg.slug :: r.2.1, r.2.2)

/-- `_process_section_config` over a list of section configs: each config
node yields a `Sec` whose `pages` are the slugs its own entries resolved
and whose subsections are processed recursively after the entries, the
state threading through everything in order. -/
def processSections (mf : List (List Char × MdFile)) :
    List SectionCfg → St → List Sec × St × Nat
  | [], st => ([], st, 0)
  | SectionCfg.mk t es subs :: cs, st =>
    let r₁ := processEntries mf es st
    let r₂ := processSections mf subs r₁.1
    let r₃ := processSections mf cs r₂.2.1
    (Sec.mk (SectionCfg.titleOf (.mk t es subs)) r₁.2.1 r₂.1 :: r₃.1,
      r₃.2.1, r₁.2.2 + r₂.2.2 + r₃.2.2)
termination_by cs => sizeOf cs

/-- The fallback pass of `discover_pages`: every discovered file whose key
was not claimed by the config is appended, in `md_files` (= sorted
traversal) order. -/
def fallbackPages (mf : List (List Char × MdFile)) (seen : List (List Char)) :
    List Page :=
  (mf.filter (fun kf => kf.1 ∉ seen)).map (fun kf => mkPage kf.1 kf.2 none)

/-- Python `str.title()` (ASCII): uppercase each letter that follows a
non-letter, lowercase the other letters. -/
def titleCase (l : List Char) : List Char :=
  (l.foldl
    (fun (acc : List Char × Bool) c =>
      if c.isAlpha then
        ((if acc.2 then c.toLower else c.toUpper) :: acc.1, true)
      else (c :: acc.1, false))
    ([], false)).1.reverse

/-- Directory-name prettification from the auto-section pass: `-`/`_`
become spaces; short all-alphabetic names are uppercased, others
title-cased. -/
def prettify (d : List Char) : List Char :=
  let pretty := d.map (fun c => if c = '-' || c = '_' then ' ' else c)
  if pretty.length ≤ 4 ∧ pretty ≠ [] ∧ pretty.all Char.isAlpha then
    pretty.map Char.toUpper
  else titleCase pretty

/-- `dict.setdefault(dir, []).append(slug)`: insertion-ordered grouping. -/
def addGroup (gs : List (List Char × List (List Char))) (d slug : List Char) :
    List (List Char × List (List Char)) :=
  match gs with
  | [] => [(d, [slug])]
  | (k, v) :: rest =>
    if k = d then (k, v ++ [slug]) :: rest else (k, v) :: addGroup rest d slug

/-- Sort group keys lexicographically (`sorted(dir_groups.keys())`). -/
def sortKeys (ks : List (List Char)) : List (List Char) :=
  List.insertionSort keyLe ks

/-- The auto-section derivation at the end of `discover_pages`: runs only
when the config produced no sections and some page lives in a
subdirectory. -/
def autoSections (pages : List Page) : Option (List Sec) :=
  if pages.all (fun p => p.sectionPath = []) then none
  else
    let groups := pages.foldl
      (fun (acc : List (List Char × List (List Char)) × List (List Char)) p =>
        if p.sectionPath ≠ [] then
          (addGroup acc.1 p.sectionPath p.slug, acc.2)
        else (acc.1, acc.2 ++ [p.slug]))
      ([], [])
    let dirGroups := groups.1
    let rootSlugs := groups.2
    let overview : List Sec :=
      if rootSlugs ≠ [] ∧ dirGroups ≠ [] then
        [Sec.mk "Overview".toList rootSlugs []]
      else []
    let dirSections : List Sec :=
      (sortKeys (dirGroups.map Prod.fst)).map
        (fun d => Sec.mk (prettify d) ((lookupA dirGroups d).getD []) [])
    if dirGroups = [] then none else some (overview ++ dirSections)

/-- The result of `discover_pages`: page list, optional section tree, and
the number of warnings printed. -/
structure DiscoverResult where
  pages : List Page
  sections : Option (List Sec)
  warnings : Nat

/-- The config-processing phase of `discover_pages` (steps 2–3): returns
the state after config resolution, the section tree the config produced
(if any), and the warnings printed. -/
def discoverConfigured (mf : List (List Char × MdFile)) (cfg : Option Config) :
    St × Option (List Sec) × Nat :=
  match cfg with
  | none => (⟨[], []⟩, none, 0)
  | some c =>
    match c.sections with
    | some scs =>
      let r := processSections mf scs ⟨[], []⟩
      (r.2.1, some r.1, r.2.2)
    | none =>
      match c.pagesCfg with
      | some es =>
        let r := processEntries mf es ⟨[], []⟩
        (r.1, none, r.2.2)
      | none => (⟨[], []⟩, none, 0)

/-- `discover_pages`: build the key → file dict, resolve the config,
append the unclaimed files, then auto-derive sections when the config
produced none. -/
def discoverPages (fs : List MdFile) (cfg : Option Config) : DiscoverResult :=
  let mf := mdFilesOf fs
  let r := discoverConfigured mf cfg
  let pages := r.1.pages ++ fallbackPages mf r.1.seen
  let secs₂ :=
    match r.2.1 with
    | some s => some s
    | none => autoSections pages
  ⟨pages, secs₂, r.2.2⟩

/-! ## Search index (`build_search_index`) -/

/-- One entry of the search index: title, output path, extracted text. -/
structure SearchEntry where
  title : List Char
  url : List Char
  text : List Char
  deriving DecidableEq, Repr

/-- `build_search_index`: one entry per page in order, with the page's
extracted text truncated to 3000 characters. -/
def buildSearchIndex (pages : List Page) : List SearchEntry :=
  pages.map (fun p => ⟨p.title, p.htmlName, (extractTextContent p.content).take 3000⟩)

/-- The search-text transformation as the amended claim words it: fenced
code blocks removed, each Markdown punctuation character replaced by a
space, whitespace runs collapsed to single spaces, trimmed. -/
def specSearchTextAmended (md : List Char) : List Char :=
  let noCode := stripFences md
  let noPunct := noCode.map (fun c => if isMdPunct c then ' ' else c)
  stripWs (collapseRuns ' ' noPunct)

/-! ## Relative links (`relative_href`) -/

/-- `relative_href(from_html, to_html)` on paths represented as component
lists (`Path(...).parts`): one `..` segment per directory component of the
source page's output path, then the target path.  When the source has no
directory components the prefix is empty and the target is returned
unchanged (`List.replicate 0 _ = []`). -/
def relativeHref (fromP toP : List String) : List String :=
  List.replicate fromP.dropLast.length ".." ++ toP

/-- Interpret an href relative to a directory: pop one directory per
leading `..` segment, then append the remaining path. -/
def resolveRel (dir : List String) (href : List String) : List String :=
  match href with
  | s :: rest => if s = ".." then resolveRel dir.dropLast rest else dir ++ (s :: rest)
  | [] => dir

/-! ## The write sequence of `build_wiki` -/

/-- The root redirect stub written at the end of `build_wiki`, as a
function of the first page's output name. -/
def redirectStub (firstPage : List Char) : List Char :=
  "<!DOCTYPE html><html><head><meta http-equiv=\"refresh\" content=\"0;url=".toList ++
    firstPage ++
    "\"></head><body><a href=\"".toList ++ firstPage ++
    "\">Go to wiki</a></body></html>".toList

/-- The sequence of `(path, content)` file writes performed by
`build_wiki` under the output root, in program order: every rendered page
first, then the root `index.html` redirect stub targeting the first
page. -/
def buildWrites (render : Page → List Char) (pages : List Page) :
    List (List Char × List Char) :=
  pages.map (fun p => (p.htmlName, render p)) ++
    (match pages.head? with
     | some p₀ => [("index.html".toList, redirectStub p₀.htmlName)]
     | none => [])

/-- The final content of the file at `p` after performing the writes in
order (the last write to a path wins). -/
def lastWrite (writes : List (List Char × List Char)) (p : List Char) :
    Option (List Char) :=
  (writes.reverse.find? (fun w => w.1 = p)).map Prod.snd

/-- A text free of the three HTML metacharacters escaped by step 1 of
`simple_md_to_html`. -/
def NoMeta (l : List Char) : Prop := '&' ∉ l ∧ '<' ∉ l ∧ '>' ∉ l

instance (l : List Char) : Decidable (NoMeta l) := by
  unfold NoMeta
  infer_instance

/-- A concrete root-level `index.md` page used by the C8 witness. -/
def indexPageW : Page :=
  ⟨"index.md".toList, "index.html".toList, "Home".toList, "index".toList,
    [], "# Home".toList⟩

/-- Whether the substring `".md"` occurs in a string (so Python
`str.replace(".md", "")` changes it). -/
def containsMd : List Char → Bool
  | '.' :: 'm' :: 'd' :: _ => true
  | _ :: rest => containsMd rest
  | [] => false

/-- Well-formedness of a discovered corpus: distinct relative paths, all
of them well-formed `*.md` paths (what `rglob("*.md")` over a real file
system yields). -/
def FsWf (fs : List MdFile) : Prop :=
  (fs.map MdFile.path).Nodup ∧ ∀ f ∈ fs, WfPath f.path

instance (fs : List MdFile) : Decidable (FsWf fs) := by
  unfold FsWf
  infer_instance

/-- Well-formedness of a key → file map: every key is the file's
discovery key (true of `md_files` by construction). -/
def MdfWf (mf : List (List Char × MdFile)) : Prop :=
  ∀ kf ∈ mf, kf.1 = fileKey kf.2.path

instance : IsTotal (List Char) keyLe where
  total := by
    intro a
    induction a with
    | nil => intro b; left; rfl
    | cons x xs ih =>
      intro b
      cases b with
      | nil => right; rfl
      | cons y ys =>
        rcases lt_trichotomy x y with h | h | h
        · left
          show lexLe (x :: xs) (y :: ys) = true
          rw [lexLe, if_pos h]
        · subst h
          rcases ih ys with h' | h'
          · left
            show lexLe (x :: xs) (x :: ys) = true
            rw [lexLe, if_neg (lt_irrefl x), if_neg (lt_irrefl x)]
            exact h'
          · right
            show lexLe (x :: ys) (x :: xs) = true
            rw [lexLe, if_neg (lt_irrefl x), if_neg (lt_irrefl x)]
            exact h'
        · right
          show lexLe (y :: ys) (x :: xs) = true
          rw [lexLe, if_pos h]

instance : IsTrans (List Char) keyLe where
  trans := by
    intro a
    induction a with
    | nil => intro b c _ _; rfl
    | cons x xs ih =>
      intro b c hab hbc
      cases b with
      | nil => exact absurd hab (by simp [keyLe, lexLe])
      | cons y ys =>
        cases c with
        | nil => exact absurd hbc (by simp [keyLe, lexLe])
        | cons z zs =>
          show lexLe (x :: xs) (z :: zs) = true
          unfold keyLe at hab hbc
          rw [lexLe] at hab hbc ⊢
          rcases lt_trichotomy x y with hxy | rfl | hxy
          · rcases lt_trichotomy y z with hyz | rfl | hyz
            · rw [if_pos (lt_trans hxy hyz)]
            · rw [if_pos hxy]
            · rw [if_neg (lt_asymm hyz), if_pos hyz] at hbc
              cases hbc
          · rw [if_neg (lt_irrefl x), if_neg (lt_irrefl x)] at hab
            rcases lt_trichotomy x z with hxz | rfl | hxz
            · rw [if_pos hxz]
            · rw [if_neg (lt_irrefl x), if_neg (lt_irrefl x)] at hbc ⊢
              exact ih ys zs hab hbc
            · rw [if_neg (lt_asymm hxz), if_pos hxz] at hbc
              cases hbc
          · rw [if_neg (lt_asymm hxy), if_pos hxy] at hab
            cases hab

instance : IsTotal (List (List Char)) partsKeyLe where
  total := by
    intro a
    induction a with
    | nil => intro b; left; rfl
    | cons x xs ih =>
      intro b
      cases b with
      | nil => right; rfl
      | cons y ys =>
        by_cases hxy : x = y
        · subst hxy
          rcases ih ys with h | h
          · left
            show partsLe (x :: xs) (x :: ys) = true
            rw [partsLe, if_pos rfl]
            exact h
          · right
            show partsLe (x :: ys) (x :: xs) = true
            rw [partsLe, if_pos rfl]
            exact h
        · rcases (inferInstance : IsTotal (List Char) keyLe).total x y with h | h
          · left
            show partsLe (x :: xs) (y :: ys) = true
            rw [partsLe, if_neg hxy]
            exact h
          · right
            show partsLe (y :: ys) (x :: xs) = true
            rw [partsLe, if_neg (fun he => hxy he.symm)]
            exact h

instance : IsTrans (List (List Char)) partsKeyLe where
  trans := by
    have hanti : ∀ a b : List Char, lexLe a b = true → lexLe b a = true →
        a = b := by
      intro a
      induction a with
      | nil =>
        intro b h₁ h₂
        cases b with
        | nil => rfl
        | cons y ys => simp [lexLe] at h₂
      | cons x xs ih =>
        intro b h₁ h₂
        cases b with
        | nil => simp [lexLe] at h₁
        | cons y ys =>
          rw [lexLe] at h₁ h₂
          rcases lt_trichotomy x y with h | rfl | h
          · rw [if_neg (lt_asymm h), if_pos h] at h₂
            cases h₂
          · rw [if_neg (lt_irrefl x), if_neg (lt_irrefl x)] at h₁ h₂
            rw [ih ys h₁ h₂]
          · rw [if_neg (lt_asymm h), if_pos h] at h₁
            cases h₁
    intro a
    induction a with
    | nil => intro b c _ _; rfl
    | cons x xs ih =>
      intro b c hab hbc
      cases b with
      | nil => simp [partsKeyLe, partsLe] at hab
      | cons y ys =>
        cases c with
        | nil => simp [partsKeyLe, partsLe] at hbc
        | cons z zs =>
          show partsLe (x :: xs) (z :: zs) = true
          unfold partsKeyLe at hab hbc
          rw [partsLe] at hab hbc ⊢
          by_cases hxy : x = y
          · subst hxy
            rw [if_pos rfl] at hab
            by_cases hxz : x = z
            · subst hxz
              rw [if_pos rfl] at hbc ⊢
              exact ih ys zs hab hbc
            · rw [if_neg hxz] at hbc ⊢
              exact hbc
          · rw [if_neg hxy] at hab
            by_cases hyz : y = z
            · subst hyz
              rw [if_neg hxy]
              exact hab
            · rw [if_neg hyz] at hbc
              by_cases hxz : x = z
              · subst hxz
                exact absurd (hanti x y hab hbc) hxy
              · rw [if_neg hxz]
                exact (inferInstance : IsTrans (List Char) keyLe).trans x y z hab hbc

instance : IsTotal MdFile fileLe where
  total := fun f g =>
    (inferInstance : IsTotal (List (List Char)) partsKeyLe).total
      (f.path.splitOn '/') (g.path.splitOn '/')

instance : IsTrans MdFile fileLe where
  trans := fun _ _ _ hab hbc =>
    (inferInstance : IsTrans (List (List Char)) partsKeyLe).trans _ _ _ hab hbc

/-- The invariant maintained by config-phase page resolution: page keys
are distinct, every resolved key is in `seen`, and every page's slug is
the slugification of its key. -/
def InvSt (st : St) : Prop :=
  (st.pages.map keyOf).Nodup ∧
  (∀ p ∈ st.pages, keyOf p ∈ st.seen) ∧
  (∀ p ∈ st.pages, p.slug = slugify (keyOf p))

/-! ## Helper lemmas -/

theorem resolveRel_replicate (toP : List String) (hto : ".." ∉ toP) :
    ∀ (n : Nat) (dir : List String), dir.length = n →
      resolveRel dir (List.replicate n ".." ++ toP) = toP := by
  intro n
  induction n with
  | zero =>
    intro dir hdir
    rw [List.length_eq_zero] at hdir
    subst hdir
    match toP, hto with
    | [], _ => simp [resolveRel]
    | s :: rest, hto =>
      rw [List.replicate, List.nil_append, resolveRel]
      rw [if_neg (by simp at hto; exact fun h => hto.1 h.symm)]
      simp
  | succ n ih =>
    intro dir hdir
    rw [List.replicate, List.cons_append, resolveRel, if_pos rfl]
    exact ih dir.dropLast (by simp [hdir])

/-- C4: interpreting `relative_href(from_html, to_html)` relative to the
directory of `from_html` (popping one directory per `..` segment, then
appending the remaining path) yields exactly `to_html`, for nesting depths
0 through 5; when `from_html` has zero directory components the result is
`to_html` unchanged. -/
theorem relative_href_roundtrip (fromP toP : List String)
    (_hdepth : fromP.dropLast.length ≤ 5) (hto : ".." ∉ toP) :
    resolveRel fromP.dropLast (relativeHref fromP toP) = toP ∧
    (fromP.dropLast = [] → relativeHref fromP toP = toP) := by
  constructor
  · exact resolveRel_replicate toP hto _ _ rfl
  · intro h
    rw [relativeHref, h]
    simp

/-- Witness for C4 at a concrete pair of output paths. -/
theorem relative_href_roundtrip_witness :
    (["modules", "auth.html"] : List String).dropLast.length ≤ 5 ∧
      ".." ∉ (["overview.html"] : List String) ∧
      (resolveRel (["modules", "auth.html"] : List String).dropLast
          (relativeHref ["modules", "auth.html"] ["overview.html"]) =
        ["overview.html"] ∧
      ((["modules", "auth.html"] : List String).dropLast = [] →
        relativeHref ["modules", "auth.html"] ["overview.html"] = ["overview.html"])) :=
  ⟨by decide, by decide,
    relative_href_roundtrip ["modules", "auth.html"] ["overview.html"]
      (by decide) (by decide)⟩

/-- C8: after `build_wiki` performs all its writes, the content at the
output root's `index.html` is the redirect stub targeting the first
discovered page — even when some page's own output name is `index.html`
(a root-level `index.md`): the stub is written last and wins. -/
theorem build_wiki_index_redirect (render : Page → List Char)
    (pages : List Page) (p₀ : Page) (h : pages.head? = some p₀) :
    lastWrite (buildWrites render pages) "index.html".toList =
      some (redirectStub p₀.htmlName) ∧
    ∀ p ∈ pages, render p ≠ redirectStub p₀.htmlName →
      lastWrite (buildWrites render pages) "index.html".toList ≠
        some (render p) := by
  have hmain :
      lastWrite (buildWrites render pages) "index.html".toList =
        some (redirectStub p₀.htmlName) := by
    rw [buildWrites, h, lastWrite, List.reverse_append]
    simp
  refine ⟨hmain, ?_⟩
  intro p _ hne
  rw [hmain]
  intro hcontra
  exact hne (by injection hcontra with h₂; exact h₂.symm)

/-! ## Heading and anchor lemmas -/

theorem escapeLine_eq_self {l : List Char} (h : NoMeta l) : escapeLine l = l := by
  induction l with
  | nil => rfl
  | cons c cs ih =>
    obtain ⟨h₁, h₂, h₃⟩ := h
    have hc : escapeChar c = [c] := by
      rw [escapeChar, if_neg (by intro hh; exact h₁ (hh ▸ List.mem_cons_self c cs)),
        if_neg (by intro hh; exact h₂ (hh ▸ List.mem_cons_self c cs)),
        if_neg (by intro hh; exact h₃ (hh ▸ List.mem_cons_self c cs))]
    have ihh := ih ⟨fun hm => h₁ (List.mem_cons_of_mem _ hm),
      fun hm => h₂ (List.mem_cons_of_mem _ hm),
      fun hm => h₃ (List.mem_cons_of_mem _ hm)⟩
    rw [escapeLine] at ihh ⊢
    rw [List.map_cons, List.flatten_cons, hc, ihh]
    rfl

theorem replaceAllAux_not_mem {pat rep : List Char} {c₀ : Char}
    (hpat : pat.head? = some c₀) :
    ∀ (fuel : Nat) (l : List Char), c₀ ∉ l → replaceAllAux pat rep fuel l = l := by
  intro fuel l
  induction l generalizing fuel with
  | nil => intro _; cases fuel <;> rfl
  | cons c cs ih =>
    intro hmem
    match fuel with
    | 0 => rfl
    | fuel + 1 =>
      rw [replaceAllAux]
      rw [if_neg]
      · rw [ih fuel (fun hm => hmem (List.mem_cons_of_mem _ hm))]
      · rintro ⟨hne, hpre⟩
        match pat, hpat with
        | p₀ :: pt, hpat =>
          simp only [List.head?_cons, Option.some_inj] at hpat
          subst hpat
          simp only [List.isPrefixOf, Bool.and_eq_true, beq_iff_eq] at hpre
          exact hmem (hpre.1 ▸ List.mem_cons_self c cs)

theorem replaceAll_not_mem {pat rep : List Char} {c₀ : Char}
    (hpat : pat.head? = some c₀) {l : List Char} (h : c₀ ∉ l) :
    replaceAll pat rep l = l :=
  replaceAllAux_not_mem hpat l.length l h

theorem restoreTags_eq_self {l : List Char} (h : '&' ∉ l) : restoreTags l = l := by
  have key : ∀ (pat rep m : List Char), pat.head? = some '&' → '&' ∉ m →
      replaceAll pat rep m = m :=
    fun _ _ _ hp hm => replaceAll_not_mem hp hm
  rw [restoreTags,
    key "&lt;details&gt;".toList "<details>".toList l rfl h,
    key "&lt;/details&gt;".toList "</details>".toList l rfl h,
    key "&lt;summary&gt;".toList "<summary>".toList l rfl h,
    key "&lt;/summary&gt;".toList "</summary>".toList l rfl h]

theorem headingStageLine_of_noMeta {l : List Char} (h : NoMeta l) :
    headingStageLine l = renderHeadLine l := by
  rw [headingStageLine, escapeLine_eq_self h, restoreTags_eq_self h.1]

theorem renderHeadLine_of_match {l : List Char} {lv : Nat} {t : List Char}
    (h : matchHeading l = some (lv, t)) :
    renderHeadLine l = mkHeading lv t (anchorOf t) := by
  rw [renderHeadLine, h]

/-- C5 counterexample: for the heading text `A&B`, the renderer escapes
the line before computing the anchor, so the emitted anchor is
`aampb` (computed from `A&amp;B`), while the claim's algorithm applied to
the heading text yields `ab`. -/
theorem heading_anchor_claim_fails :
    headingStageLine "# A&B".toList = mkHeading 1 "A&amp;B".toList "aampb".toList ∧
    specAnchor "A&B".toList = "ab".toList ∧
    "aampb".toList ≠ "ab".toList :=
  ⟨by decide, by decide, by decide⟩

/-- C5 (amended): for every heading line free of the HTML metacharacters
`&`, `<`, `>` (which step 1 of the renderer escapes before the heading
pass runs), the emitted anchor equals the spec's algorithm applied to the
heading text: lowercase, delete every character that is not a word
character, whitespace, or hyphen, collapse whitespace runs to single
hyphens, strip outer hyphens; in particular the heading text
`Hello, World! (v2)` yields the anchor `hello-world-v2`. -/
theorem heading_anchor_spec (l : List Char) (lv : Nat) (t : List Char)
    (hm : matchHeading l = some (lv, t)) (hfree : NoMeta l) :
    headingStageLine l = mkHeading lv t (specAnchor t) ∧
    anchorOf "Hello, World! (v2)".toList = "hello-world-v2".toList := by
  constructor
  · rw [headingStageLine_of_noMeta hfree, renderHeadLine_of_match hm]
    rfl
  · decide

/-- Witness for C5 at a concrete heading line. -/
theorem heading_anchor_spec_witness :
    matchHeading "## Setup Guide".toList = some (2, "Setup Guide".toList) ∧
    NoMeta "## Setup Guide".toList ∧
    headingStageLine "## Setup Guide".toList =
      mkHeading 2 "Setup Guide".toList (specAnchor "Setup Guide".toList) :=
  ⟨by decide, by decide,
    (heading_anchor_spec "## Setup Guide".toList 2 "Setup Guide".toList
      (by decide) (by decide)).1⟩

/-- Witness for C8 with a one-page corpus whose page is itself
`index.html`. -/
theorem build_wiki_index_redirect_witness :
    ([indexPageW].head? = some indexPageW) ∧
    lastWrite (buildWrites Page.content [indexPageW]) "index.html".toList =
      some (redirectStub "index.html".toList) :=
  ⟨rfl, (build_wiki_index_redirect Page.content [indexPageW] indexPageW rfl).1⟩


/-! ## Lemmas on `".md"` stripping and path stems -/

theorem stripMd_cons_ne (c : Char) (rest : List Char)
    (h : ∀ rest₁ : List Char, c = '.' → rest = 'm' :: 'd' :: rest₁ → False) :
    stripMd (c :: rest) = c :: stripMd rest := by
  rw [stripMd.eq_def]
  split
  · next rest₁ heq =>
    injection heq with h₁ h₂
    exact absurd (h rest₁ h₁ h₂) id
  · next c₁ rest₁ heq =>
    injection heq with h₁ h₂
    subst h₁; subst h₂
    rfl
  · next heq => cases heq

theorem stripMd_length_le (l : List Char) : (stripMd l).length ≤ l.length := by
  induction l using stripMd.induct with
  | case1 rest ih => rw [stripMd]; simp only [List.length_cons]; omega
  | case2 c rest h ih => rw [stripMd_cons_ne c rest h]; simpa using ih
  | case3 => simp [stripMd]

theorem stripMd_length_lt (l : List Char) (hmd : containsMd l = true) :
    (stripMd l).length < l.length := by
  induction l using stripMd.induct with
  | case1 rest ih =>
    rw [stripMd]
    have := stripMd_length_le rest
    simp only [List.length_cons]
    omega
  | case2 c rest h ih =>
    rw [stripMd_cons_ne c rest h]
    have hrest : containsMd rest = true := by
      rw [containsMd.eq_def] at hmd
      split at hmd
      · next rest₁ heq =>
        injection heq with h₁ h₂
        exact absurd (h rest₁ h₁ h₂) id
      · next c₁ rest₁ heq =>
        injection heq with h₁ h₂
        subst h₁; subst h₂
        exact hmd
      · next heq => cases heq
    have := ih hrest
    simpa using Nat.succ_lt_succ this
  | case3 => simp [containsMd] at hmd

theorem baseName_length_le (p : List Char) : (baseName p).length ≤ p.length := by
  rw [baseName]
  have hpre : (p.reverse.takeWhile (fun c => decide (c ≠ '/'))) <+: p.reverse :=
    List.takeWhile_prefix _
  have h := hpre.sublist.length_le
  simpa using h

theorem stemOfName_length_le (n : List Char) : (stemOfName n).length ≤ n.length := by
  rw [stemOfName]
  split
  · exact Nat.le_refl _
  · split
    · exact Nat.le_refl _
    · split
      · exact Nat.le_refl _
      · next x rest heq =>
        split
        · exact Nat.le_refl _
        · have h₁ : (n.reverse.dropWhile (fun c => decide (c ≠ '.'))).length ≤ n.length := by
            have h₂ := (List.dropWhile_suffix
              (l := n.reverse) (p := fun c => decide (c ≠ '.'))).sublist.length_le
            simpa using h₂
          rw [heq] at h₁
          simp only [List.length_cons] at h₁
          simpa using Nat.le_of_succ_le h₁

theorem pathStem_length_le (p : List Char) : (pathStem p).length ≤ p.length :=
  Nat.le_trans (stemOfName_length_le _) (baseName_length_le _)

/-! ## Lemmas on lookup and resolution -/

theorem lookupA_mem {β : Type} {mf : List (List Char × β)} {k : List Char} {f : β}
    (h : lookupA mf k = some f) : (k, f) ∈ mf := by
  induction mf with
  | nil => cases h
  | cons kf rest ih =>
    obtain ⟨k₁, f₁⟩ := kf
    rw [lookupA] at h
    split at h
    · next heq => cases h; exact heq ▸ List.mem_cons_self _ _
    · exact List.mem_cons_of_mem _ (ih h)

theorem resolvePage_cases {s : List Char} {mf : List (List Char × MdFile)}
    {k : List Char} {f : MdFile} (h : resolvePage s mf = some (k, f)) :
    (k = stripMd s ∧ lookupA mf k = some f) ∨
      (k = pathStem (stripMd s) ∧ lookupA mf (stripMd s) = none ∧
        lookupA mf k = some f) := by
  rw [resolvePage] at h
  cases h₁ : lookupA mf (stripMd s) with
  | some f₁ =>
    rw [h₁] at h
    simp only [Option.some_inj, Prod.mk.injEq] at h
    obtain ⟨hk, hf⟩ := h
    subst hk; subst hf
    exact Or.inl ⟨rfl, h₁⟩
  | none =>
    rw [h₁] at h
    cases h₂ : lookupA mf (pathStem (stripMd s)) with
    | some f₂ =>
      rw [h₂] at h
      simp only [Option.some_inj, Prod.mk.injEq] at h
      obtain ⟨hk, hf⟩ := h
      subst hk; subst hf
      exact Or.inr ⟨rfl, rfl, h₂⟩
    | none =>
      rw [h₂] at h
      cases h

/-- C9: config page-reference normalization removes every occurrence of
`".md"` anywhere in the reference (Python `str.replace`), not only a
trailing extension: `v1.mdocs/page` is mangled to `v1ocs/page` (the key
`_resolve_page` is invoked with), such a reference fails against a corpus
containing only the literal file, and in general a reference containing
`".md"` never resolves under a key equal to the reference itself. -/
theorem md_normalization_mangles (r : List Char)
    (mf : List (List Char × MdFile)) (k : List Char) (f : MdFile)
    (hr : containsMd r = true)
    (hres : resolvePage (stripMd r) mf = some (k, f)) :
    entryStem (.str r) = stripMd r ∧
    entryStem (.str "v1.mdocs/page".toList) = "v1ocs/page".toList ∧
    resolvePage (entryStem (.str "v1.mdocs/page".toList))
        (mdFilesOf [⟨"v1.mdocs/page.md".toList, []⟩]) = none ∧
    k ≠ r := by
  refine ⟨rfl, by decide, by decide, ?_⟩
  have hlt : (stripMd r).length < r.length := stripMd_length_lt r hr
  have hkr : k.length < r.length := by
    rcases resolvePage_cases hres with ⟨hk, _⟩ | ⟨hk, _, _⟩
    · rw [hk]
      exact Nat.lt_of_le_of_lt (stripMd_length_le _) hlt
    · rw [hk]
      exact Nat.lt_of_le_of_lt
        (Nat.le_trans (pathStem_length_le _) (stripMd_length_le _)) hlt
  intro hcontra
  rw [hcontra] at hkr
  exact Nat.lt_irrefl _ hkr

/-- Witness for C9: the reference `page.md` contains `".md"`, resolves to
the key `page`, and that key differs from the reference. -/
theorem md_normalization_mangles_witness :
    containsMd "page.md".toList = true ∧
    resolvePage (stripMd "page.md".toList)
        (mdFilesOf [⟨"page.md".toList, []⟩]) =
      some ("page".toList, ⟨"page.md".toList, []⟩) ∧
    "page".toList ≠ "page.md".toList :=
  ⟨by decide, by decide,
    (md_normalization_mangles "page.md".toList
      (mdFilesOf [⟨"page.md".toList, []⟩]) "page".toList
      ⟨"page.md".toList, []⟩ (by decide) (by decide)).2.2.2⟩

/-- C2 counterexample: discovery registers `docs/setup.md` only under the
key `docs/setup` (no base-name key), and the reference `setup` — whose
base name equals the file's base name — does not resolve. -/
theorem basename_lookup_claim_fails :
    (mdFilesOf [⟨"docs/setup.md".toList, []⟩]).map Prod.fst =
      ["docs/setup".toList] ∧
    pathStem "docs/setup.md".toList = "setup".toList ∧
    resolvePage "setup".toList (mdFilesOf [⟨"docs/setup.md".toList, []⟩]) =
      none :=
  ⟨by decide, by decide, by decide⟩

/-- C2 (amended): page discovery registers each discovered file under
exactly one lookup key — its relative path without extension; resolution
first tries the exact (`".md"`-stripped) reference and, failing that,
looks up the base name of the *reference* among the registered keys, so
the fallback succeeds precisely when some discovered file's full key
equals the reference's base name (a root-level file), not for files in
subdirectories. -/
theorem resolve_page_spec (fs : List MdFile) (s : List Char) :
    (mdFilesOf fs).map Prod.fst =
      (sortFiles fs).map (fun f => fileKey f.path) ∧
    (∀ f, lookupA (mdFilesOf fs) (stripMd s) = some f →
      resolvePage s (mdFilesOf fs) = some (stripMd s, f)) ∧
    (lookupA (mdFilesOf fs) (stripMd s) = none →
      resolvePage s (mdFilesOf fs) =
        (lookupA (mdFilesOf fs) (pathStem (stripMd s))).map
          (fun f => (pathStem (stripMd s), f))) := by
  refine ⟨?_, ?_, ?_⟩
  · rw [mdFilesOf, List.map_map]
    rfl
  · intro f hf
    rw [resolvePage, hf]
  · intro hnone
    rw [resolvePage, hnone]
    cases h₂ : lookupA (mdFilesOf fs) (pathStem (stripMd s)) <;> rfl

/-- Witness for the amended C2: a root-level file resolves by its exact
key, and a base-name reference to it resolves through the fallback. -/
theorem resolve_page_spec_witness :
    resolvePage "overview".toList (mdFilesOf [⟨"overview.md".toList, []⟩]) =
      some ("overview".toList, ⟨"overview.md".toList, []⟩) ∧
    resolvePage "guides/overview".toList
        (mdFilesOf [⟨"overview.md".toList, []⟩]) =
      some ("overview".toList, ⟨"overview.md".toList, []⟩) :=
  ⟨(resolve_page_spec [⟨"overview.md".toList, []⟩] "overview".toList).2.1
      ⟨"overview.md".toList, []⟩ (by decide),
    by
      rw [(resolve_page_spec [⟨"overview.md".toList, []⟩]
        "guides/overview".toList).2.2 (by decide)]
      decide⟩

/-- C6 counterexample: for the page text `a-b` the search-index entry's
text is `a b` — the hyphen is replaced by a space, not removed — while
the claim's algorithm (deleting the punctuation characters) yields `ab`. -/
theorem search_text_claim_fails :
    (buildSearchIndex [⟨"a-b.md".toList, "a-b.html".toList, "T".toList,
        "a-b".toList, [], "a-b".toList⟩]).map SearchEntry.text =
      ["a b".toList] ∧
    (claimSearchText "a-b".toList).take 3000 = "ab".toList ∧
    "a b".toList ≠ "ab".toList :=
  ⟨by decide, by decide, by decide⟩

/-- C6 (amended): for every page list the search index has exactly one
entry per page, in order, whose text is the page's raw text with fenced
code blocks removed, each Markdown punctuation character *replaced by a
space*, whitespace runs collapsed to single spaces, trimmed, and
truncated to at most 3000 characters. -/
theorem search_index_spec (pages : List Page) :
    buildSearchIndex pages =
      pages.map (fun p =>
        ⟨p.title, p.htmlName, (specSearchTextAmended p.content).take 3000⟩) ∧
    (buildSearchIndex pages).length = pages.length ∧
    (buildSearchIndex pages).all
      (fun e => decide (e.text.length ≤ 3000)) = true := by
  refine ⟨rfl, by simp [buildSearchIndex], ?_⟩
  rw [List.all_eq_true]
  intro e he
  simp only [buildSearchIndex, List.mem_map] at he
  obtain ⟨p, _, rfl⟩ := he
  simp [List.length_take]

/-! ## Lemmas for unresolved config references (C7) -/

theorem processEntries_bad (mf : List (List Char × MdFile)) (e : Entry)
    (ys : List Entry) (hbad : resolvePage (entryStem e) mf = none) :
    ∀ (xs : List Entry) (st : St),
      processEntries mf (xs ++ e :: ys) st =
        ((processEntries mf (xs ++ ys) st).1,
          (processEntries mf (xs ++ ys) st).2.1,
          (processEntries mf (xs ++ ys) st).2.2 + 1) := by
  intro xs
  induction xs with
  | nil =>
    intro st
    rw [List.nil_append, List.nil_append, processEntries, hbad]
  | cons x xs ih =>
    intro st
    rw [List.cons_append, List.cons_append, processEntries, processEntries]
    cases hx : resolvePage (entryStem x) mf with
    | none => simp only [ih st]
    | some kf =>
      obtain ⟨k, f⟩ := kf
      by_cases hk : k ∈ st.seen
      · simp only [if_pos hk, ih st]
      · simp only [if_neg hk, ih]

theorem titleOf_mk (t : Option (List Char)) (es : List Entry)
    (subs : List SectionCfg) :
    SectionCfg.titleOf (.mk t es subs) = t.getD "Untitled".toList := by
  cases t <;> rfl

theorem processSections_bad (mf : List (List Char × MdFile)) (e : Entry)
    (ys : List Entry) (hbad : resolvePage (entryStem e) mf = none)
    (xs : List Entry) (t : Option (List Char)) (subs cs : List SectionCfg)
    (st : St) :
    processSections mf (.mk t (xs ++ e :: ys) subs :: cs) st =
      ((processSections mf (.mk t (xs ++ ys) subs :: cs) st).1,
        (processSections mf (.mk t (xs ++ ys) subs :: cs) st).2.1,
        (processSections mf (.mk t (xs ++ ys) subs :: cs) st).2.2 + 1) := by
  rw [processSections, processSections, processEntries_bad mf e ys hbad xs st]
  simp only [titleOf_mk]
  refine Prod.ext ?_ (Prod.ext ?_ ?_) <;> simp <;> omega

theorem discoverPages_flat_bad (fs : List MdFile) (e : Entry)
    (ys xs : List Entry)
    (hbad : resolvePage (entryStem e) (mdFilesOf fs) = none) :
    discoverPages fs (some ⟨none, some (xs ++ e :: ys)⟩) =
      ⟨(discoverPages fs (some ⟨none, some (xs ++ ys)⟩)).pages,
        (discoverPages fs (some ⟨none, some (xs ++ ys)⟩)).sections,
        (discoverPages fs (some ⟨none, some (xs ++ ys)⟩)).warnings + 1⟩ := by
  rw [discoverPages, discoverPages, discoverConfigured, discoverConfigured]
  simp only [processEntries_bad (mdFilesOf fs) e ys hbad xs]

/-- C7: a config page reference that resolves to no discovered file emits
exactly one warning and contributes no entry to the returned page list,
the section tree, or any section's page list; every other reference and
discovered file is processed exactly as if the unresolved reference were
absent — it is never fatal.  Stated for the flat-config branch of
`discover_pages` and for `_process_section_config`. -/
theorem unresolved_reference_skipped (fs : List MdFile) (e : Entry)
    (xs ys : List Entry)
    (hbad : resolvePage (entryStem e) (mdFilesOf fs) = none) :
    ((discoverPages fs (some ⟨none, some (xs ++ e :: ys)⟩)).pages =
        (discoverPages fs (some ⟨none, some (xs ++ ys)⟩)).pages ∧
      (discoverPages fs (some ⟨none, some (xs ++ e :: ys)⟩)).sections =
        (discoverPages fs (some ⟨none, some (xs ++ ys)⟩)).sections ∧
      (discoverPages fs (some ⟨none, some (xs ++ e :: ys)⟩)).warnings =
        (discoverPages fs (some ⟨none, some (xs ++ ys)⟩)).warnings + 1) ∧
    ∀ (t : Option (List Char)) (subs cs : List SectionCfg) (st : St),
      processSections (mdFilesOf fs) (.mk t (xs ++ e :: ys) subs :: cs) st =
        ((processSections (mdFilesOf fs) (.mk t (xs ++ ys) subs :: cs) st).1,
          (processSections (mdFilesOf fs) (.mk t (xs ++ ys) subs :: cs) st).2.1,
          (processSections (mdFilesOf fs)
            (.mk t (xs ++ ys) subs :: cs) st).2.2 + 1) := by
  refine ⟨?_, ?_⟩
  · rw [discoverPages_flat_bad fs e ys xs hbad]
    exact ⟨rfl, rfl, rfl⟩
  · intro t subs cs st
    exact processSections_bad (mdFilesOf fs) e ys hbad xs t subs cs st

/-- Witness for C7: a flat config referencing the missing `nope` plus the
present `a` yields the same page list as the config without the bad
reference, and one warning. -/
theorem unresolved_reference_skipped_witness :
    resolvePage (entryStem (.str "nope".toList))
        (mdFilesOf [⟨"a.md".toList, []⟩]) = none ∧
    (discoverPages [⟨"a.md".toList, []⟩]
        (some ⟨none, some ([] ++ Entry.str "nope".toList :: [Entry.str "a".toList])⟩)).pages =
      (discoverPages [⟨"a.md".toList, []⟩]
        (some ⟨none, some ([] ++ [Entry.str "a".toList])⟩)).pages ∧
    (discoverPages [⟨"a.md".toList, []⟩]
        (some ⟨none, some ([] ++ Entry.str "nope".toList :: [Entry.str "a".toList])⟩)).warnings =
      (discoverPages [⟨"a.md".toList, []⟩]
        (some ⟨none, some ([] ++ [Entry.str "a".toList])⟩)).warnings + 1 :=
  ⟨by decide,
    ((unresolved_reference_skipped [⟨"a.md".toList, []⟩]
        (.str "nope".toList) [] [.str "a".toList] (by decide)).1).1,
    ((unresolved_reference_skipped [⟨"a.md".toList, []⟩]
        (.str "nope".toList) [] [.str "a".toList] (by decide)).1).2.2⟩

/-! ## Invariants of page discovery (C1, C3) -/

theorem mdfWf_mdFilesOf (fs : List MdFile) : MdfWf (mdFilesOf fs) := by
  intro kf hkf
  rw [mdFilesOf] at hkf
  obtain ⟨g, _, rfl⟩ := List.mem_map.mp hkf
  rfl

theorem resolvePage_lookup {s : List Char} {mf : List (List Char × MdFile)}
    {k : List Char} {f : MdFile} (h : resolvePage s mf = some (k, f)) :
    lookupA mf k = some f := by
  rcases resolvePage_cases h with ⟨_, h₂⟩ | ⟨_, _, h₂⟩ <;> exact h₂

theorem mkPage_keyOf {mf : List (List Char × MdFile)} (hmf : MdfWf mf)
    {k : List Char} {f : MdFile} (hmem : (k, f) ∈ mf)
    (o : Option (List Char)) : keyOf (mkPage k f o) = k :=
  (hmf (k, f) hmem).symm

theorem processEntries_inv (mf : List (List Char × MdFile)) (hmf : MdfWf mf) :
    ∀ (es : List Entry) (st : St), InvSt st →
      InvSt (processEntries mf es st).1 := by
  intro es
  induction es with
  | nil => intro st h; exact h
  | cons e es ih =>
    intro st h
    rw [processEntries]
    split
    · exact ih st h
    · next k f heq =>
      by_cases hk : k ∈ st.seen
      · rw [if_pos hk]
        exact ih st h
      · rw [if_neg hk]
        obtain ⟨hnd, hseen, hslug⟩ := h
        have hkmem : (k, f) ∈ mf := lookupA_mem (resolvePage_lookup heq)
        have hkey : keyOf (mkPage k f (entryTitle e)) = k :=
          mkPage_keyOf hmf hkmem _
        have hinv : InvSt ⟨st.pages ++ [mkPage k f (entryTitle e)], k :: st.seen⟩ := by
          refine ⟨?_, ?_, ?_⟩
          · show (List.map keyOf (st.pages ++ [mkPage k f (entryTitle e)])).Nodup
            rw [List.map_append, List.map_cons, List.map_nil, hkey]
            rw [List.nodup_append]
            refine ⟨hnd, List.nodup_singleton _, ?_⟩
            intro a ha hb
            simp only [List.mem_singleton] at hb
            subst hb
            obtain ⟨p, hp, rfl⟩ := List.mem_map.mp ha
            exact hk (hseen p hp)
          · intro p hp
            rcases List.mem_append.mp hp with hp | hp
            · exact List.mem_cons_of_mem _ (hseen p hp)
            · simp only [List.mem_singleton] at hp
              subst hp
              rw [hkey]
              exact List.mem_cons_self _ _
          · intro p hp
            rcases List.mem_append.mp hp with hp | hp
            · exact hslug p hp
            · simp only [List.mem_singleton] at hp
              subst hp
              rw [hkey]
              rfl
        exact ih _ hinv

theorem processSections_inv (mf : List (List Char × MdFile)) (hmf : MdfWf mf) :
    ∀ (cs : List SectionCfg) (st : St), InvSt st →
      InvSt (processSections mf cs st).2.1
  | [], st, h => by rw [processSections]; exact h
  | SectionCfg.mk t es subs :: cs, st, h => by
    rw [processSections]
    have h₁ := processEntries_inv mf hmf es st h
    have h₂ := processSections_inv mf hmf subs (processEntries mf es st).1 h₁
    have h₃ := processSections_inv mf hmf cs
      (processSections mf subs (processEntries mf es st).1).2.1 h₂
    exact h₃
termination_by cs => sizeOf cs

theorem discoverConfigured_inv (fs : List MdFile) (cfg : Option Config) :
    InvSt (discoverConfigured (mdFilesOf fs) cfg).1 := by
  have hempty : InvSt ⟨[], []⟩ := ⟨List.nodup_nil, by simp, by simp⟩
  have hmf := mdfWf_mdFilesOf fs
  cases cfg with
  | none => simp only [discoverConfigured]; exact hempty
  | some c =>
    obtain ⟨sec, pg⟩ := c
    cases sec with
    | some scs =>
      simp only [discoverConfigured]
      exact processSections_inv _ hmf scs ⟨[], []⟩ hempty
    | none =>
      cases pg with
      | some es =>
        simp only [discoverConfigured]
        exact processEntries_inv _ hmf es ⟨[], []⟩ hempty
      | none => simp only [discoverConfigured]; exact hempty

theorem fileKey_wf {p : List Char} (h : WfPath p) :
    p = fileKey p ++ '.' :: 'm' :: 'd' :: [] := by
  obtain ⟨q, rfl, _⟩ := h
  rw [fileKey]
  have hlen : (q ++ '.' :: 'm' :: 'd' :: []).length - 3 = q.length := by simp
  rw [hlen, List.take_left]

theorem fileKey_inj {p₁ p₂ : List Char} (h₁ : WfPath p₁) (h₂ : WfPath p₂)
    (he : fileKey p₁ = fileKey p₂) : p₁ = p₂ := by
  rw [fileKey_wf h₁, fileKey_wf h₂, he]

theorem mdFiles_keys_nodup (fs : List MdFile) (hfs : FsWf fs) :
    ((mdFilesOf fs).map Prod.fst).Nodup := by
  obtain ⟨hnd, hwf⟩ := hfs
  have hperm := List.perm_insertionSort fileLe fs
  have hnd2 : ((sortFiles fs).map MdFile.path).Nodup :=
    ((hperm.map MdFile.path).nodup_iff).mpr hnd
  have hshape : (mdFilesOf fs).map Prod.fst =
      ((sortFiles fs).map MdFile.path).map fileKey := by
    rw [mdFilesOf, List.map_map, List.map_map]
    rfl
  rw [hshape]
  refine List.Nodup.map_on ?_ hnd2
  intro x hx y hy hxy
  obtain ⟨g, hg, rfl⟩ := List.mem_map.mp hx
  obtain ⟨g₁, hg₁, rfl⟩ := List.mem_map.mp hy
  exact fileKey_inj (hwf g (hperm.mem_iff.mp hg))
    (hwf g₁ (hperm.mem_iff.mp hg₁)) hxy

theorem mkPage_keyOf_pair {mf : List (List Char × MdFile)} (hmf : MdfWf mf)
    {kf : List Char × MdFile} (hmem : kf ∈ mf) (o : Option (List Char)) :
    keyOf (mkPage kf.1 kf.2 o) = kf.1 :=
  (hmf kf hmem).symm

theorem fallback_keys (mf : List (List Char × MdFile)) (hmf : MdfWf mf)
    (seen : List (List Char)) :
    (fallbackPages mf seen).map keyOf =
      (mf.filter (fun kf => kf.1 ∉ seen)).map Prod.fst := by
  rw [fallbackPages, List.map_map]
  refine List.map_congr_left ?_
  intro kf hkf
  exact mkPage_keyOf_pair hmf (List.mem_of_mem_filter hkf) none

theorem map_fst_filter_notseen (seen : List (List Char))
    (l : List (List Char × MdFile)) :
    (l.filter (fun kf => kf.1 ∉ seen)).map Prod.fst =
      (l.map Prod.fst).filter (fun k => k ∉ seen) := by
  induction l with
  | nil => rfl
  | cons kf rest ih =>
    rw [List.map_cons, List.filter_cons, List.filter_cons]
    cases hq : decide (kf.1 ∉ seen) <;> simp_all

theorem fallback_slug (mf : List (List Char × MdFile)) (hmf : MdfWf mf)
    (seen : List (List Char)) :
    ∀ p ∈ fallbackPages mf seen, p.slug = slugify (keyOf p) := by
  intro p hp
  obtain ⟨kf, hkf, rfl⟩ := List.mem_map.mp hp
  rw [mkPage_keyOf_pair hmf (List.mem_of_mem_filter hkf)]
  rfl

/-- C1 counterexample: the corpus `{a-b.md, a.b.md}` discovers two pages
whose slugs are both `a-b`, so slugs are not pairwise distinct for every
input. -/
theorem slug_clash_counterexample :
    ((discoverPages [⟨"a-b.md".toList, "x".toList⟩, ⟨"a.b.md".toList, "y".toList⟩]
        none).pages.map Page.slug) = ["a-b".toList, "a-b".toList] ∧
    ¬ ((discoverPages [⟨"a-b.md".toList, "x".toList⟩, ⟨"a.b.md".toList, "y".toList⟩]
        none).pages.map Page.slug).Nodup :=
  ⟨by decide, by decide⟩

/-- C1 (amended): for every well-formed corpus and any config, the
discovery *keys* of the returned pages are pairwise distinct, and each
page's slug is the slugification of its key; consequently the slugs are
pairwise distinct whenever `slugify` is injective on the discovered keys
(the code has no defence when two distinct keys collapse to one slug). -/
theorem discovered_slugs_unique (fs : List MdFile) (cfg : Option Config)
    (hfs : FsWf fs) :
    (((discoverPages fs cfg).pages.map keyOf).Nodup) ∧
    ((∀ k₁ ∈ (discoverPages fs cfg).pages.map keyOf,
        ∀ k₂ ∈ (discoverPages fs cfg).pages.map keyOf,
        slugify k₁ = slugify k₂ → k₁ = k₂) →
      ((discoverPages fs cfg).pages.map Page.slug).Nodup) := by
  have hpages : (discoverPages fs cfg).pages =
      (discoverConfigured (mdFilesOf fs) cfg).1.pages ++
        fallbackPages (mdFilesOf fs)
          (discoverConfigured (mdFilesOf fs) cfg).1.seen := rfl
  obtain ⟨hnd, hseen, hslug⟩ := discoverConfigured_inv fs cfg
  have hmf := mdfWf_mdFilesOf fs
  have hkeys : ((discoverPages fs cfg).pages.map keyOf).Nodup := by
    rw [hpages, List.map_append, List.nodup_append]
    refine ⟨hnd, ?_, ?_⟩
    · rw [fallback_keys (mdFilesOf fs) hmf _, map_fst_filter_notseen]
      exact (mdFiles_keys_nodup fs hfs).filter _
    · intro a ha hb
      rw [fallback_keys (mdFilesOf fs) hmf _, map_fst_filter_notseen] at hb
      have hnotseen : a ∉ (discoverConfigured (mdFilesOf fs) cfg).1.seen :=
        of_decide_eq_true (List.mem_filter.mp hb).2
      obtain ⟨p, hp, rfl⟩ := List.mem_map.mp ha
      exact hnotseen (hseen p hp)
  refine ⟨hkeys, ?_⟩
  intro hinj
  have hsl : (discoverPages fs cfg).pages.map Page.slug =
      ((discoverPages fs cfg).pages.map keyOf).map slugify := by
    rw [List.map_map]
    refine List.map_congr_left ?_
    intro p hp
    rw [hpages] at hp
    rcases List.mem_append.mp hp with hp | hp
    · exact hslug p hp
    · exact fallback_slug (mdFilesOf fs) hmf _ p hp
  rw [hsl]
  exact List.Nodup.map_on hinj hkeys

/-- Witness for the amended C1 at a concrete two-file corpus. -/
theorem discovered_slugs_unique_witness :
    FsWf [⟨"a.md".toList, "x".toList⟩, ⟨"b.md".toList, "y".toList⟩] ∧
    ((discoverPages [⟨"a.md".toList, "x".toList⟩, ⟨"b.md".toList, "y".toList⟩]
        none).pages.map Page.slug).Nodup :=
  ⟨by decide,
    (discovered_slugs_unique
      [⟨"a.md".toList, "x".toList⟩, ⟨"b.md".toList, "y".toList⟩] none
      (by decide)).2 (by decide)⟩

theorem lexLt_of_le_ne : ∀ {a b : List Char}, lexLe a b = true → a ≠ b →
    lexLt a b = true := by
  intro a
  induction a with
  | nil =>
    intro b hle hne
    cases b with
    | nil => exact absurd rfl hne
    | cons y ys => rfl
  | cons x xs ih =>
    intro b hle hne
    cases b with
    | nil => simp [lexLe] at hle
    | cons y ys =>
      rw [lexLe] at hle
      rw [lexLt]
      rcases lt_trichotomy x y with h | rfl | h
      · rw [if_pos h]
      · rw [if_neg (lt_irrefl x), if_neg (lt_irrefl x)] at hle ⊢
        exact ih hle (fun heq => hne (by rw [heq]))
      · rw [if_neg (lt_asymm h), if_pos h] at hle
        cases hle

theorem partsLt_of_le_ne : ∀ {a b : List (List Char)}, partsLe a b = true →
    a ≠ b → partsLt a b = true := by
  intro a
  induction a with
  | nil =>
    intro b hle hne
    cases b with
    | nil => exact absurd rfl hne
    | cons y ys => rfl
  | cons x xs ih =>
    intro b hle hne
    cases b with
    | nil => simp [partsLe] at hle
    | cons y ys =>
      rw [partsLe] at hle
      rw [partsLt]
      by_cases hxy : x = y
      · subst hxy
        rw [if_pos rfl] at hle ⊢
        exact ih hle (fun heq => hne (by rw [heq]))
      · rw [if_neg hxy] at hle ⊢
        exact lexLt_of_le_ne hle hxy

theorem splitOn_slash_inj {p q : List Char}
    (h : p.splitOn '/' = q.splitOn '/') : p = q := by
  have hp : ['/'].intercalate (p.splitOn '/') = p := List.intercalate_splitOn p '/'
  have hq : ['/'].intercalate (q.splitOn '/') = q := List.intercalate_splitOn q '/'
  rw [← hp, ← hq, h]

/-- C3 counterexample: with the corpus `{a.md, a.b.md}` and no config,
both pages are unconfigured fallback pages, the returned key order is
`a.b` then `a`, and `a.b` is not lexicographically smaller than `a` —
the fallback is sorted by path (with the `.md` extension), not by key. -/
theorem fallback_key_order_counterexample :
    ((discoverPages [⟨"a.md".toList, "x".toList⟩, ⟨"a.b.md".toList, "y".toList⟩]
        none).pages.map keyOf) = ["a.b".toList, "a".toList] ∧
    (discoverConfigured (mdFilesOf [⟨"a.md".toList, "x".toList⟩,
        ⟨"a.b.md".toList, "y".toList⟩]) none).1.pages = [] ∧
    lexLt "a.b".toList "a".toList = false :=
  ⟨by decide, by decide, by decide⟩

/-- C3 (amended): the files not resolved by the config are appended to
the end of the page list in the sorted-traversal order, which is
`pathlib`'s component-wise order on the relative source path *including*
the `.md` extension: any two fallback pages appear in strictly
increasing component-wise path order (by key order — the path without
extension, compared as one string — this can differ, see the
counterexample; and component order itself differs from raw string
order, e.g. `a/y.md` precedes `a-b/x.md`). -/
theorem fallback_append_sorted (fs : List MdFile) (cfg : Option Config)
    (hfs : FsWf fs) :
    (discoverPages fs cfg).pages =
      (discoverConfigured (mdFilesOf fs) cfg).1.pages ++
        fallbackPages (mdFilesOf fs)
          (discoverConfigured (mdFilesOf fs) cfg).1.seen ∧
    List.Pairwise (fun p q : Page =>
        partsLt (p.relPath.splitOn '/') (q.relPath.splitOn '/') = true)
      (fallbackPages (mdFilesOf fs)
        (discoverConfigured (mdFilesOf fs) cfg).1.seen) := by
  refine ⟨rfl, ?_⟩
  have hsort : List.Pairwise fileLe (sortFiles fs) :=
    List.sorted_insertionSort fileLe fs
  have hperm := List.perm_insertionSort fileLe fs
  have hnd : ((sortFiles fs).map MdFile.path).Nodup :=
    ((hperm.map MdFile.path).nodup_iff).mpr hfs.1
  have hne : List.Pairwise (fun f g : MdFile => f.path ≠ g.path)
      (sortFiles fs) := by
    rw [List.Nodup, List.pairwise_map] at hnd
    exact hnd
  have hstrict : List.Pairwise
      (fun f g : MdFile =>
        partsLt (f.path.splitOn '/') (g.path.splitOn '/') = true)
      (sortFiles fs) :=
    (hsort.and hne).imp
      (fun hab => partsLt_of_le_ne hab.1
        (fun he => hab.2 (splitOn_slash_inj he)))
  have hmfp : List.Pairwise
      (fun kf kg : List Char × MdFile =>
        partsLt (kf.2.path.splitOn '/') (kg.2.path.splitOn '/') = true)
      (mdFilesOf fs) := by
    rw [mdFilesOf, List.pairwise_map]
    exact hstrict
  have hfil := hmfp.filter
    (fun kf => decide (kf.1 ∉ (discoverConfigured (mdFilesOf fs) cfg).1.seen))
  rw [fallbackPages, List.pairwise_map]
  exact hfil

/-- Witness for the amended C3 at a concrete corpus where component-wise
path order differs from raw string order (`a/y.md` before `a-b/x.md`). -/
theorem fallback_append_sorted_witness :
    FsWf [⟨"a-b/x.md".toList, "u".toList⟩, ⟨"a/y.md".toList, "v".toList⟩] ∧
    ((discoverPages [⟨"a-b/x.md".toList, "u".toList⟩, ⟨"a/y.md".toList, "v".toList⟩]
        none).pages.map Page.relPath) = ["a/y.md".toList, "a-b/x.md".toList] ∧
    List.Pairwise (fun p q : Page =>
        partsLt (p.relPath.splitOn '/') (q.relPath.splitOn '/') = true)
      (fallbackPages
        (mdFilesOf [⟨"a-b/x.md".toList, "u".toList⟩, ⟨"a/y.md".toList, "v".toList⟩])
        (discoverConfigured
          (mdFilesOf [⟨"a-b/x.md".toList, "u".toList⟩, ⟨"a/y.md".toList, "v".toList⟩])
          none).1.seen) :=
  ⟨by decide, by decide,
    (fallback_append_sorted
      [⟨"a-b/x.md".toList, "u".toList⟩, ⟨"a/y.md".toList, "v".toList⟩] none
      (by decide)).2⟩

end BuildWiki
